import Mathlib

/-! # Verification of the micro-ecs storage and query engine

A shallow embedding of `src/ecs.ts` (the mature variant: the one with a
free list, `removeAt`, `adjustAt`, and an immutable `Query` wrapper around a
`QueryI` descriptor).  Entities are JavaScript objects: ordered string-keyed
records whose stored values may also be the `undefined` sentinel.  We model a
JS value as `JSVal` and a JS object as an insertion-ordered association list
`JSObj` with `Option JSVal` values (`none` = the key is present but its value
is the `undefined` sentinel; a key that is absent from the list is absent from
the object).  Component keys in this library are ordinary non-numeric string
keys, so JS `for ... in` enumeration order is insertion order, which the list
order represents.
-/

set_option autoImplicit false

namespace MicroEcs

/-- A JavaScript runtime value, as far as this library observes one: numbers,
strings, booleans, `null`, and (reference-typed) objects identified by an
address.  The `undefined` sentinel is represented one level up, by `Option`.
(JS `NaN` is also falsy; the library never produces one, and we use integers.) -/
inductive JSVal where
  | num (n : Int)
  | str (s : String)
  | bool (b : Bool)
  | jnull
  | ref (a : Nat)
deriving DecidableEq, Repr

/-- JavaScript truthiness of a (defined) value: `0`, `""`, `false` and `null`
are falsy; every object reference is truthy. -/
def JSVal.truthy : JSVal → Bool
  | .num n => n != 0
  | .str s => s != ""
  | .bool b => b
  | .jnull => false
  | .ref _ => true

/-- A JavaScript object: key/value pairs in insertion order, unique keys.
A value of `none` models a key that is present with the `undefined` value. -/
def JSObj : Type := List (String × Option JSVal)

instance : DecidableEq JSObj := by
  unfold JSObj; infer_instance

instance : Repr JSObj := by
  unfold JSObj; infer_instance

/-- Truthiness of the result of a JS property read (`undefined` is falsy). -/
def truthyRead : Option JSVal → Bool
  | none => false
  | some v => v.truthy

/-- JS property read `o[k]`: `undefined` both when the key is absent and when
it is present with the `undefined` value. -/
def getProp (o : JSObj) (k : String) : Option JSVal :=
  match o with
  | [] => none
  | (k', v) :: rest => if k' = k then v else getProp rest k

/-- JS property write `o[k] = v`: an existing key keeps its position, a new
key is appended at the end (insertion order). -/
def setProp (o : JSObj) (k : String) (v : Option JSVal) : JSObj :=
  match o with
  | [] => [(k, v)]
  | (k', v') :: rest => if k' = k then (k, v) :: rest else (k', v') :: setProp rest k v

/-- JS `delete o[k]`. -/
def delProp (o : JSObj) (k : String) : JSObj :=
  match o with
  | [] => []
  | (k', v') :: rest => if k' = k then rest else (k', v') :: delProp rest k

/-- The `isEmptyObject` helper from `ecs.ts`: `Object.keys(obj).length === 0`.
Keys explicitly set to `undefined` are still own enumerable keys. -/
def isEmptyObject (o : JSObj) : Bool :=
  match o with
  | [] => true
  | _ :: _ => false

/-! ## The query descriptor and the immutable `Query` builder -/

/-- The `QueryI` descriptor interface of `ecs.ts`: a key set plus optional
filter / foreach / map stages.  Stages receive the projection (a `JSObj`
holding only the selected keys). -/
structure QueryI where
  keys : List String
  filter : Option (JSObj → Bool)
  foreach : Option (JSObj → Unit)
  map : Option (JSObj → Option JSObj)

/-- The `Query` class of `ecs.ts`: a wrapper holding the private `_query`
descriptor. -/
structure Query where
  _query : QueryI

/-- The method `Query.filter`: `return new Query({ ...this._query, filter })` — object
spread copies the descriptor, so this is a functional record update. -/
def Query.filter (self : Query) (f : JSObj → Bool) : Query :=
  ⟨{ self._query with filter := some f }⟩

/-- The method `Query.forEach`: `return new Query({ ...this._query, foreach })`. -/
def Query.forEach (self : Query) (f : JSObj → Unit) : Query :=
  ⟨{ self._query with foreach := some f }⟩

/-- The method `Query.map`: `return new Query({ ...this._query, map })`. -/
def Query.map (self : Query) (f : JSObj → Option JSObj) : Query :=
  ⟨{ self._query with map := some f }⟩

/-- The method `Query.build`: returns the underlying descriptor. -/
def Query.build (self : Query) : QueryI :=
  self._query

/-- The method `QueryBuilder.select(...keys)`: `return new Query({ keys })` — a query
with the given keys and no stages.  (`QueryBuilder` itself is stateless.) -/
def select (keys : List String) : Query :=
  ⟨⟨keys, none, none, none⟩⟩

/-! ## The `World` -/

/-- The `World` class: `_entities` is the slot array (a slot is a live entity
or the `undefined` tombstone), `_free` the free list of slot indices
(a JS array used as a stack: `push` appends, `pop` removes the last). -/
structure World where
  entities : List (Option JSObj)
  free : List Nat
deriving DecidableEq, Repr

/-- The contents of slot `i` (`this._entities[i]`; out-of-range reads give
`undefined`). -/
def World.slotAt (w : World) (i : Nat) : Option JSObj :=
  (w.entities.getD i none)

/-- One iteration of the loop in `World.add`:
`const i = this._free.pop(); if (i) { this._entities[i] = ent } else { this._entities.push(ent) }`.
`pop` removes the last element even when that element is `0`; the subsequent
`if (i)` is a truthiness test, so a popped index of `0` takes the `push`
branch.  (In every reachable state free-list indices are in range, where
`List.set` agrees with the JS element write.) -/
def World.add1 (w : World) (ent : JSObj) : World :=
  match w.free.getLast? with
  | none => { w with entities := w.entities ++ [some ent] }
  | some i =>
    if i = 0 then
      { entities := w.entities ++ [some ent], free := w.free.dropLast }
    else
      { entities := w.entities.set i (some ent), free := w.free.dropLast }

/-- The method `World.add(...entities)`: the loop over the variadic argument. -/
def World.add (w : World) (ents : List JSObj) : World :=
  ents.foldl World.add1 w

/-- The method `World.allEntities`: `this._entities.filter(Boolean)`.  Every object —
including an empty one — is truthy and every vacant slot holds `undefined`,
which is falsy, so this keeps exactly the live slots, in array order. -/
def World.allEntities (w : World) : List JSObj :=
  w.entities.filterMap id

/-- The method `World.removeAt`: `this._entities[index] = undefined; this._free.push(index)`. -/
def World.removeAt (w : World) (i : Nat) : World :=
  { entities := w.entities.set i none, free := w.free ++ [i] }

/-- One iteration of the `for (const key in diff)` loop of `World.adjustAt`,
acting on the local `entity` object together with a count of how many times
`removeAt` has fired.  `if (diff[key])` is a truthiness test on the read
value, so a key whose diff value is defined but falsy takes the `delete`
branch; after each `delete`, `isEmptyObject(entity)` triggers `removeAt`. -/
def adjustStep (st : JSObj × Nat) (kv : String × Option JSVal) : JSObj × Nat :=
  if truthyRead kv.2 then
    (setProp st.1 kv.1 kv.2, st.2)
  else
    let e := delProp st.1 kv.1
    (e, if isEmptyObject e then st.2 + 1 else st.2)

/-- The method `World.adjustAt(index, diff)`: the local `entity` is a reference to the
record in slot `index`; every mutation of it is visible through the slot until
`removeAt` overwrites the slot with `undefined`, after which the slot stays
`undefined` (the loop keeps mutating the now-detached record, and each further
`delete` that leaves it empty pushes `index` to the free list again). -/
def World.adjustAt (w : World) (i : Nat) (diff : JSObj) : World :=
  let ent := (w.slotAt i).getD []
  let r := diff.foldl adjustStep (ent, 0)
  if r.2 = 0 then
    { w with entities := w.entities.set i (some r.1) }
  else
    { entities := w.entities.set i none,
      free := w.free ++ List.replicate r.2 i }

/-- The `hasAllKeys` closure in `World.run`:
`if (e[key] === undefined) return false` — strict definedness, not truthiness. -/
def hasAllKeys (keys : List String) (e : JSObj) : Bool :=
  keys.all fun k => (getProp e k).isSome

/-- The projection loop in `World.run`:
`const picked = {}; for (const key of keys) picked[key] = ent[key];` — a
fresh object per entity, holding the entity's current values at the selected
keys. -/
def pickedOf (keys : List String) (ent : JSObj) : JSObj :=
  keys.foldl (fun p k => setProp p k (getProp ent k)) []

/-- One iteration of the slot loop in `World.run` (stages as pure functions):
skip `undefined` slots (`if (!ent) continue`), skip entities failing
`hasAllKeys`, build `picked`, apply the filter stage, then the map stage
(`foreach` returns `void` and cannot change the world in this model, so it is
elided here; `runStepT` below records its invocations). -/
def World.runStep (q : QueryI) (w : World) (i : Nat) : World :=
  match w.slotAt i with
  | none => w
  | some ent =>
    if hasAllKeys q.keys ent then
      let picked := pickedOf q.keys ent
      let ok := match q.filter with
        | none => true
        | some f => f picked
      if ok then
        match q.map with
        | none => w
        | some m =>
          match m picked with
          | none => w.removeAt i
          | some diff => w.adjustAt i diff
      else w
    else w

/-- The method `World.run(q)`: `for (let i = 0; i < this._entities.length; ++i) ...`.
The loop body never changes `this._entities.length` (`removeAt` and
`adjustAt` only `set` existing slots), so iterating over the initial index
range is the loop's behaviour (`run_length` below). -/
def World.run (w : World) (q : QueryI) : World :=
  (List.range w.entities.length).foldl (World.runStep q) w

/-! ## Invocation-instrumented run

`runT` is the same loop as `run`, additionally recording, for each stage,
the list of invocations the loop performs: the pairs `(slot index, projection
passed to the stage)`, in call order.  This makes "stage X is (not) run on
entity i" a statement about a computed value. -/

/-- The per-stage call log of one `run`: `(slot index, projection)` pairs in
invocation order. -/
structure Trace where
  filterCalls : List (Nat × JSObj)
  foreachCalls : List (Nat × JSObj)
  mapCalls : List (Nat × JSObj)
deriving DecidableEq, Repr

def Trace.nil : Trace := ⟨[], [], []⟩

def Trace.append (a b : Trace) : Trace :=
  ⟨a.filterCalls ++ b.filterCalls, a.foreachCalls ++ b.foreachCalls,
   a.mapCalls ++ b.mapCalls⟩

/-- No stage was invoked on slot `i`. -/
def Trace.noCallsAt (t : Trace) (i : Nat) : Prop :=
  (∀ e ∈ t.filterCalls, e.1 ≠ i) ∧ (∀ e ∈ t.foreachCalls, e.1 ≠ i) ∧
  (∀ e ∈ t.mapCalls, e.1 ≠ i)

instance (t : Trace) (i : Nat) : Decidable (t.noCallsAt i) := by
  unfold Trace.noCallsAt; infer_instance

/-- Step `runStep` plus call logging: the filter stage is invoked (and logged)
whenever it is present and the entity passed `hasAllKeys`; foreach and map
are invoked when additionally the filter result was `true`. -/
def World.runStepT (q : QueryI) (wt : World × Trace) (i : Nat) : World × Trace :=
  match wt.1.slotAt i with
  | none => wt
  | some ent =>
    if hasAllKeys q.keys ent then
      let picked := pickedOf q.keys ent
      let t1 := match q.filter with
        | none => wt.2
        | some _ => { wt.2 with filterCalls := wt.2.filterCalls ++ [(i, picked)] }
      let ok := match q.filter with
        | none => true
        | some f => f picked
      if ok then
        let t2 := match q.foreach with
          | none => t1
          | some _ => { t1 with foreachCalls := t1.foreachCalls ++ [(i, picked)] }
        match q.map with
        | none => (wt.1, t2)
        | some m =>
          let t3 := { t2 with mapCalls := t2.mapCalls ++ [(i, picked)] }
          match m picked with
          | none => (wt.1.removeAt i, t3)
          | some diff => (wt.1.adjustAt i diff, t3)
      else (wt.1, t1)
    else wt

/-- The run loop with call logging. -/
def World.runT (w : World) (q : QueryI) : World × Trace :=
  (List.range w.entities.length).foldl (World.runStepT q) (w, Trace.nil)

/-- A singleton log `[(i, p)]` when `b` is true, else no call. -/
def callList (b : Bool) (i : Nat) (p : JSObj) : List (Nat × JSObj) :=
  if b then [(i, p)] else []

/-- The calls one loop iteration contributes, as a function of the slot
contents it sees. -/
def stepTrace (q : QueryI) (i : Nat) (s : Option JSObj) : Trace :=
  match s with
  | none => Trace.nil
  | some ent =>
    if hasAllKeys q.keys ent then
      let picked := pickedOf q.keys ent
      let ok := match q.filter with
        | none => true
        | some f => f picked
      ⟨callList q.filter.isSome i picked,
       callList (q.foreach.isSome && ok) i picked,
       callList (q.map.isSome && ok) i picked⟩
    else Trace.nil

/-- The whole log of a run over index list `L`, step by step. -/
def runTraceAux (q : QueryI) : World → List Nat → Trace
  | _, [] => Trace.nil
  | w, i :: is => (stepTrace q i (w.slotAt i)).append
      (runTraceAux q (World.runStep q w i) is)

/-! ## Run with projection-mutating stages

In JS a stage can mutate the `picked` projection object it receives
(assign/delete keys).  The same object is passed to the later stages, so such
mutations are visible downstream; `picked` is never stored, and the entity is
a different object, so they cannot reach entity storage.  We model a stage as
returning both its JS return value and the post-call state of the projection
object, and thread that state exactly as the source threads the one `picked`
object through `filter(picked)`, `foreach(picked)`, `map(picked)`. -/

/-- A query whose stages may mutate the projection object: each stage
returns its result together with the projection's state after the call. -/
structure QueryM where
  keys : List String
  filterM : Option (JSObj → Bool × JSObj)
  foreachM : Option (JSObj → JSObj)
  mapM : Option (JSObj → Option JSObj × JSObj)

/-- One iteration of the `run` loop with projection-mutating stages: the
fresh projection `p0` is threaded through filter (`fr.2`), foreach (`p2`),
then map; only map's returned diff reaches the world. -/
def World.runStepM (q : QueryM) (w : World) (i : Nat) : World :=
  match w.slotAt i with
  | none => w
  | some ent =>
    if hasAllKeys q.keys ent then
      let p0 := pickedOf q.keys ent
      let fr := match q.filterM with
        | none => (true, p0)
        | some f => f p0
      if fr.1 then
        let p2 := match q.foreachM with
          | none => fr.2
          | some g => g fr.2
        match q.mapM with
        | none => w
        | some m =>
          match (m p2).1 with
          | none => w.removeAt i
          | some diff => w.adjustAt i diff
      else w
    else w

/-- The run loop with projection-mutating stages. -/
def World.runM (w : World) (q : QueryM) : World :=
  (List.range w.entities.length).foldl (World.runStepM q) w

/-- The state of the projection object after the filter and foreach stages
have (possibly) mutated it, as a function of its initial state. -/
def QueryM.threadProj (q : QueryM) (p : JSObj) : JSObj :=
  let p1 := match q.filterM with
    | none => p
    | some f => (f p).2
  match q.foreachM with
  | none => p1
  | some g => g p1

/-- The pure query obtained by composing away the projection mutations:
each stage's return value as a function of the initial projection. -/
def QueryM.toPure (q : QueryM) : QueryI where
  keys := q.keys
  filter := q.filterM.map fun f => fun p => (f p).1
  foreach := q.foreachM.map fun _ => fun _ => ()
  map := q.mapM.map fun m => fun p => (m (q.threadProj p)).1

/-! ## Reference-level world

JS objects are reference types: the slot array stores references to entity
records, and `allEntities` (`this._entities.filter(Boolean)`) returns those
same references.  To reason about aliasing we model the heap explicitly:
addresses are `Nat`, `heap` maps an address to the record stored there, and
a slot holds an address or the `undefined` tombstone. -/

structure RWorld where
  heap : List JSObj
  entities : List (Option Nat)
  free : List Nat
deriving DecidableEq, Repr

/-- One iteration of `World.add` at the reference level: the entity record
is allocated at a fresh address, and the slot logic is as in `World.add1`. -/
def RWorld.add1 (w : RWorld) (ent : JSObj) : RWorld :=
  let a := w.heap.length
  let heap := w.heap ++ [ent]
  match w.free.getLast? with
  | none => ⟨heap, w.entities ++ [some a], w.free⟩
  | some i =>
    if i = 0 then ⟨heap, w.entities ++ [some a], w.free.dropLast⟩
    else ⟨heap, w.entities.set i (some a), w.free.dropLast⟩

/-- The method `allEntities` at the reference level: `this._entities.filter(Boolean)`
keeps the slots' object references (every object is truthy, the `undefined`
tombstones are falsy) — the result is a new array whose elements are the
stored references themselves, in slot order. -/
def RWorld.allEntities (w : RWorld) : List Nat :=
  w.entities.filterMap id

/-- What a caller does when it mutates a record it holds a reference to:
overwrite the heap cell at that address. -/
def RWorld.heapWrite (w : RWorld) (a : Nat) (o : JSObj) : RWorld :=
  { w with heap := w.heap.set a o }

/-- Read the record a reference points to. -/
def RWorld.deref (w : RWorld) (a : Nat) : JSObj :=
  w.heap.getD a []

/-- Spec-side `allEntities`, following the spec's words — "returns a new
ordered sequence containing a shallow copy of every live entity", "a
defensive snapshot copy, not a live view": every live entity record is
copied to a fresh address and the fresh references are returned.  (First
component: the returned references; second: the heap afterwards.) -/
def RWorld.allEntitiesCopySpec (w : RWorld) : List Nat × List JSObj :=
  let live := w.entities.filterMap id
  (List.range' w.heap.length live.length,
   w.heap ++ live.map fun r => w.heap.getD r [])

/-! ## Basic facts about `add` and `allEntities` -/

/-- On a world with an empty free list, `add` only appends, in argument
order, and the free list stays empty. -/
theorem add_free_nil (ents : List JSObj) : ∀ es : List (Option JSObj),
    World.add ⟨es, []⟩ ents = ⟨es ++ ents.map some, []⟩ := by
  induction ents with
  | nil => intro es; simp [World.add]
  | cons e rest ih =>
    intro es
    show List.foldl World.add1 (World.add1 ⟨es, []⟩ e) rest = _
    have h1 : World.add1 ⟨es, []⟩ e = ⟨es ++ [some e], []⟩ := rfl
    rw [h1]
    show World.add ⟨es ++ [some e], []⟩ rest = _
    rw [ih (es ++ [some e])]
    simp

/-- C6: for every sequence of entities added to a fresh World with no
intervening deletions, `allEntities()` returns exactly those entities in the
order they were added.  (A fresh world has no free list, so every `add`
appends; `allEntities` keeps slots in array order.) -/
theorem c6_insertion_order_preserved (ents : List JSObj) :
    (World.add ⟨[], []⟩ ents).allEntities = ents := by
  rw [add_free_nil]
  show (([] : List (Option JSObj)) ++ ents.map some).filterMap id = ents
  simp

/-! ## The builder chain (C8) -/

/-- C8: each builder call (`filter` / `forEach` / `map`) returns a new
`Query` whose descriptor equals the receiver's with only the corresponding
stage replaced.  The source builds the result with an object spread
(`new Query({ ...this._query, filter })`), which copies the receiver's
descriptor rather than mutating it — embedded here as a functional record
update, so the receiver is unchanged by construction and a base `Query` can
be branched into independent derived Queries. -/
theorem c8_builder_returns_updated_copy (q : Query) (f : JSObj → Bool)
    (g : JSObj → Unit) (m : JSObj → Option JSObj) :
    (q.filter f).build = { q.build with filter := some f } ∧
    (q.forEach g).build = { q.build with foreach := some g } ∧
    (q.map m).build = { q.build with map := some m } :=
  ⟨rfl, rfl, rfl⟩

/-! ## Concrete executions exhibiting the truthiness bugs (C1, C3, C4) -/

/-- C1: the code contradicts the claim (and its own `Query.map` doc comment,
which promises `entity[key] = diff[key]` whenever the diff value is defined).
`adjustAt` tests the diff value with JS truthiness (`if (diff[key])`), so the
defined-but-falsy diff value `0` takes the `delete` branch: running a map
stage that returns `{age: 0}` on the single entity `{age: 1}` deletes the
`age` key and, the entity being now empty, removes the entity entirely
(slot tombstoned, index pushed to the free list) instead of storing
`{age: 0}`. -/
theorem c1_falsy_defined_diff_value_deletes :
    World.run ⟨[some [("age", some (JSVal.num 1))]], []⟩
        ⟨["age"], none, none, some (fun _ => some [("age", some (JSVal.num 0))])⟩
      = ⟨[none], [0]⟩ ∧
    (World.run ⟨[some [("age", some (JSVal.num 1))]], []⟩
        ⟨["age"], none, none, some (fun _ => some [("age", some (JSVal.num 0))])⟩).allEntities
      = [] :=
  ⟨rfl, rfl⟩

/-- C3: the code contradicts the claim at popped index `0`.  Add one entity
to a fresh world and delete it through a map stage returning `undefined`:
the world reaches `entities = [undefined]`, `free = [0]`.  A subsequent `add`
pops `0` from the free list but then tests it with JS truthiness (`if (i)`),
so the entity is appended at the end instead of being placed in slot `0`,
and index `0` — already popped — is lost: the slot is leaked.  (The spec
itself demands index-aware handling of the free-list stack.) -/
theorem c3_popped_index_zero_mishandled :
    World.run (World.add ⟨[], []⟩ [[("a", some (JSVal.num 1))]])
        ⟨[], none, none, some (fun _ => none)⟩
      = ⟨[none], [0]⟩ ∧
    World.add ⟨[none], [0]⟩ [[("b", some (JSVal.num 2))]]
      = ⟨[none, some [("b", some (JSVal.num 2))]], []⟩ :=
  ⟨rfl, rfl⟩

/-- C4: the free-list invariant fails in a reachable state.  On the single
entity `{a: 1}`, a map stage returning `{a: undefined, b: undefined}` makes
`adjustAt` delete `a` (entity now empty, `removeAt` pushes `0`), and then
process key `b` on the already-detached empty record: the `isEmptyObject`
check fires again and `removeAt` pushes `0` a second time — the free list
ends as `[0, 0]`, a duplicate index. -/
theorem c4_duplicate_index_in_free_list :
    World.run (World.add ⟨[], []⟩ [[("a", some (JSVal.num 1))]])
        ⟨["a"], none, none, some (fun _ => some [("a", none), ("b", none)])⟩
      = ⟨[none], [0, 0]⟩ :=
  rfl

/-! ## Trace algebra -/

theorem Trace.append_nil (t : Trace) : t.append Trace.nil = t := by
  simp [Trace.append, Trace.nil]

theorem Trace.nil_append (t : Trace) : Trace.nil.append t = t := by
  simp [Trace.append, Trace.nil]

theorem Trace.append_assoc (a b c : Trace) :
    (a.append b).append c = a.append (b.append c) := by
  simp [Trace.append]

/-- One instrumented iteration is the plain iteration paired with the calls
`stepTrace` predicts from the slot contents. -/
theorem runStepT_eq (q : QueryI) (w : World) (t : Trace) (i : Nat) :
    World.runStepT q (w, t) i
      = (World.runStep q w i, t.append (stepTrace q i (w.slotAt i))) := by
  unfold World.runStepT World.runStep stepTrace
  cases h : w.slotAt i with
  | none => simp [Trace.append_nil]
  | some ent =>
    by_cases hk : hasAllKeys q.keys ent
    · simp only [hk, if_true]
      cases hf : q.filter with
      | none =>
        cases hm : q.map with
        | none =>
          cases hg : q.foreach <;>
            simp [hf, hm, Trace.append, Trace.nil, callList]
        | some m =>
          cases hmp : m (pickedOf q.keys ent) <;> cases hg : q.foreach <;>
            simp [hf, hm, hmp, Trace.append, Trace.nil, callList]
      | some f =>
        by_cases hfp : f (pickedOf q.keys ent)
        · cases hm : q.map with
          | none =>
            cases hg : q.foreach <;>
              simp [hf, hm, hfp, Trace.append, Trace.nil, callList]
          | some m =>
            cases hmp : m (pickedOf q.keys ent) <;> cases hg : q.foreach <;>
              simp [hf, hm, hfp, hmp, Trace.append, Trace.nil, callList]
        · simp [hf, hfp, Trace.append, Trace.nil, callList,
            Bool.eq_false_iff.mpr hfp]
    · simp [hk, Trace.append_nil]

/-- Folding the instrumented step is folding the plain step while appending
the per-step call logs. -/
theorem foldl_runStepT_eq (q : QueryI) (L : List Nat) : ∀ (w : World) (t : Trace),
    L.foldl (World.runStepT q) (w, t)
      = (L.foldl (World.runStep q) w, t.append (runTraceAux q w L)) := by
  induction L with
  | nil => intro w t; simp [runTraceAux, Trace.append_nil]
  | cons i is ih =>
    intro w t
    rw [List.foldl_cons, List.foldl_cons, runStepT_eq, ih, runTraceAux,
      Trace.append_assoc]

/-- The instrumented run is the plain run paired with the run's call log. -/
theorem runT_eq (w : World) (q : QueryI) :
    w.runT q = (w.run q, runTraceAux q w (List.range w.entities.length)) := by
  unfold World.runT World.run
  rw [foldl_runStepT_eq, Trace.nil_append]

/-! ## Locality: iteration `i` only touches slot `i` -/

theorem getD_set_ne {α : Type} (l : List α) (i j : Nat) (v d : α) (h : j ≠ i) :
    (l.set i v).getD j d = l.getD j d := by
  rw [List.getD_eq_getElem?_getD, List.getD_eq_getElem?_getD,
    List.getElem?_set_ne (Ne.symm h)]

theorem slotAt_removeAt_ne (w : World) (i j : Nat) (h : j ≠ i) :
    (w.removeAt i).slotAt j = w.slotAt j := by
  simp only [World.removeAt, World.slotAt]
  exact getD_set_ne _ _ _ _ _ h

theorem slotAt_adjustAt_ne (w : World) (i : Nat) (diff : JSObj) (j : Nat)
    (h : j ≠ i) : (w.adjustAt i diff).slotAt j = w.slotAt j := by
  unfold World.adjustAt
  dsimp only
  split <;> (simp only [World.slotAt]; exact getD_set_ne _ _ _ _ _ h)

theorem slotAt_runStep_ne (q : QueryI) (w : World) (i j : Nat) (h : j ≠ i) :
    (World.runStep q w i).slotAt j = w.slotAt j := by
  unfold World.runStep
  cases hs : w.slotAt i with
  | none => rfl
  | some ent =>
    dsimp only
    repeat' split
    all_goals first
      | rfl
      | exact slotAt_removeAt_ne _ _ _ h
      | exact slotAt_adjustAt_ne _ _ _ _ h

theorem slotAt_foldl_not_mem (q : QueryI) :
    ∀ (L : List Nat) (i : Nat), i ∉ L → ∀ w : World,
      (L.foldl (World.runStep q) w).slotAt i = w.slotAt i := by
  intro L
  induction L with
  | nil => intro i _ w; rfl
  | cons j js ih =>
    intro i hi w
    rw [List.foldl_cons, ih i (fun hh => hi (List.mem_cons_of_mem _ hh)),
      slotAt_runStep_ne q w j i (fun hh => hi (hh ▸ List.mem_cons_self j js))]

/-- A live slot index is within the array. -/
theorem lt_length_of_slotAt (w : World) (i : Nat) (ent : JSObj)
    (h : w.slotAt i = some ent) : i < w.entities.length := by
  by_contra hc
  push_neg at hc
  have h2 : w.entities[i]? = none := List.getElem?_eq_none hc
  simp [World.slotAt, List.getD_eq_getElem?_getD, h2] at h

/-- Split the index range of the loop around one index. -/
theorem range_decomp (i n : Nat) (h : i < n) :
    List.range n = List.range' 0 i ++ i :: List.range' (i + 1) (n - i - 1) := by
  have h4 : n - i = (n - i - 1) + 1 := by omega
  rw [List.range_eq_range']
  have h2 := List.range'_append 0 i (n - i) 1
  simp only [Nat.zero_add, Nat.one_mul] at h2
  have h3 : n - i + i = n := Nat.sub_add_cancel (Nat.le_of_lt h)
  rw [h3] at h2
  rw [← h2]
  congr 1
  conv_lhs => rw [h4]
  rw [List.range'_succ]

theorem runTraceAux_append (q : QueryI) : ∀ (L1 L2 : List Nat) (w : World),
    runTraceAux q w (L1 ++ L2)
      = (runTraceAux q w L1).append
          (runTraceAux q (L1.foldl (World.runStep q) w) L2) := by
  intro L1
  induction L1 with
  | nil => intro L2 w; simp [runTraceAux, Trace.nil_append]
  | cons i is ih =>
    intro L2 w
    have h1 : runTraceAux q w ((i :: is) ++ L2)
        = (stepTrace q i (w.slotAt i)).append
            (runTraceAux q (World.runStep q w i) (is ++ L2)) := rfl
    have h2 : runTraceAux q w (i :: is)
        = (stepTrace q i (w.slotAt i)).append
            (runTraceAux q (World.runStep q w i) is) := rfl
    rw [h1, ih, h2, Trace.append_assoc, List.foldl_cons]

/-- Every call one iteration logs names that iteration's slot index and the
projection built from the entity it saw. -/
theorem mem_stepTrace (q : QueryI) (i : Nat) (s : Option JSObj) (e : Nat × JSObj)
    (h : e ∈ (stepTrace q i s).filterCalls ∨ e ∈ (stepTrace q i s).foreachCalls ∨
         e ∈ (stepTrace q i s).mapCalls) :
    ∃ ent, s = some ent ∧ e.1 = i ∧ e.2 = pickedOf q.keys ent := by
  cases s with
  | none => simp [stepTrace, Trace.nil] at h
  | some ent =>
    refine ⟨ent, rfl, ?_⟩
    unfold stepTrace at h
    by_cases hk : hasAllKeys q.keys ent
    · simp only [hk, if_true] at h
      rcases h with h | h | h <;>
        (unfold callList at h; split at h <;> simp_all)
    · simp [hk, Trace.nil] at h

/-- Every call a run logs names a processed index and carries a projection
built by `pickedOf` from the query's keys. -/
theorem mem_runTraceAux (q : QueryI) : ∀ (L : List Nat) (w : World) (e : Nat × JSObj),
    (e ∈ (runTraceAux q w L).filterCalls ∨ e ∈ (runTraceAux q w L).foreachCalls ∨
     e ∈ (runTraceAux q w L).mapCalls) →
    e.1 ∈ L ∧ ∃ ent, e.2 = pickedOf q.keys ent := by
  intro L
  induction L with
  | nil => intro w e h; simp [runTraceAux, Trace.nil] at h
  | cons i is ih =>
    intro w e h
    have hstep : runTraceAux q w (i :: is)
        = (stepTrace q i (w.slotAt i)).append
            (runTraceAux q (World.runStep q w i) is) := rfl
    rw [hstep] at h
    simp only [Trace.append, List.mem_append] at h
    have hsplit : (e ∈ (stepTrace q i (w.slotAt i)).filterCalls ∨
          e ∈ (stepTrace q i (w.slotAt i)).foreachCalls ∨
          e ∈ (stepTrace q i (w.slotAt i)).mapCalls) ∨
        (e ∈ (runTraceAux q (World.runStep q w i) is).filterCalls ∨
          e ∈ (runTraceAux q (World.runStep q w i) is).foreachCalls ∨
          e ∈ (runTraceAux q (World.runStep q w i) is).mapCalls) := by
      tauto
    rcases hsplit with hstep' | hrest
    · obtain ⟨ent, _, h1, h2⟩ := mem_stepTrace q i _ e hstep'
      exact ⟨h1 ▸ List.mem_cons_self i is, ent, h2⟩
    · obtain ⟨h1, h2⟩ := ih _ e hrest
      exact ⟨List.mem_cons_of_mem _ h1, h2⟩

/-! ## Skip behaviour of one iteration -/

theorem runStep_skip_keys (q : QueryI) (w : World) (i : Nat) (ent : JSObj)
    (hs : w.slotAt i = some ent) (hk : hasAllKeys q.keys ent = false) :
    World.runStep q w i = w := by
  unfold World.runStep
  rw [hs]
  simp [hk]

theorem runStep_skip_filter (q : QueryI) (w : World) (i : Nat) (ent : JSObj)
    (f : JSObj → Bool) (hs : w.slotAt i = some ent) (hf : q.filter = some f)
    (hk : hasAllKeys q.keys ent = true)
    (hfp : f (pickedOf q.keys ent) = false) :
    World.runStep q w i = w := by
  unfold World.runStep
  rw [hs]
  simp [hk, hf, hfp]

theorem stepTrace_skip_keys (q : QueryI) (i : Nat) (ent : JSObj)
    (hk : hasAllKeys q.keys ent = false) :
    stepTrace q i (some ent) = Trace.nil := by
  unfold stepTrace
  simp [hk]

theorem stepTrace_filter_false (q : QueryI) (i : Nat) (ent : JSObj)
    (f : JSObj → Bool) (hf : q.filter = some f)
    (hk : hasAllKeys q.keys ent = true)
    (hfp : f (pickedOf q.keys ent) = false) :
    stepTrace q i (some ent) = ⟨[(i, pickedOf q.keys ent)], [], []⟩ := by
  unfold stepTrace
  simp [hk, hf, hfp, callList]

theorem stepTrace_filterCalls_matched (q : QueryI) (i : Nat) (ent : JSObj)
    (hk : hasAllKeys q.keys ent = true) (hf : q.filter.isSome = true) :
    (stepTrace q i (some ent)).filterCalls = [(i, pickedOf q.keys ent)] := by
  unfold stepTrace
  simp [hk, hf, callList]

/-! ## The run seen from one slot: what happens before, at, and after it -/

/-- Decompose a run around a live slot `i`: the log splits as
`t1 ++ stepTrace-at-i ++ t2` where `t1`, `t2` never mention `i`, the
iteration at `i` sees the slot's original entity, and the final contents of
slot `i` are whatever that one iteration made of it. -/
theorem runT_split (w : World) (q : QueryI) (i : Nat) (ent : JSObj)
    (hslot : w.slotAt i = some ent) :
    ∃ (t1 t2 : Trace) (w1 : World),
      w1.slotAt i = some ent ∧
      (w.runT q).2 = t1.append ((stepTrace q i (some ent)).append t2) ∧
      (∀ e : Nat × JSObj, (e ∈ t1.filterCalls ∨ e ∈ t1.foreachCalls ∨
        e ∈ t1.mapCalls) → e.1 ≠ i) ∧
      (∀ e : Nat × JSObj, (e ∈ t2.filterCalls ∨ e ∈ t2.foreachCalls ∨
        e ∈ t2.mapCalls) → e.1 ≠ i) ∧
      (w.runT q).1.slotAt i = (World.runStep q w1 i).slotAt i := by
  have hin : i < w.entities.length := lt_length_of_slotAt w i ent hslot
  have hr : List.range w.entities.length
      = List.range' 0 i ++ i :: List.range' (i + 1) (w.entities.length - i - 1) :=
    range_decomp i _ hin
  have hiL1 : i ∉ List.range' 0 i := by
    intro hmem
    rw [List.mem_range'_1] at hmem
    omega
  have hiL2 : i ∉ List.range' (i + 1) (w.entities.length - i - 1) := by
    intro hmem
    rw [List.mem_range'_1] at hmem
    omega
  have hw1 : ((List.range' 0 i).foldl (World.runStep q) w).slotAt i = some ent := by
    rw [slotAt_foldl_not_mem q _ i hiL1 w]
    exact hslot
  refine ⟨runTraceAux q w (List.range' 0 i),
    runTraceAux q
      (World.runStep q ((List.range' 0 i).foldl (World.runStep q) w) i)
      (List.range' (i + 1) (w.entities.length - i - 1)),
    (List.range' 0 i).foldl (World.runStep q) w, hw1, ?_, ?_, ?_, ?_⟩
  · rw [runT_eq]
    show runTraceAux q w (List.range w.entities.length) = _
    rw [hr, runTraceAux_append]
    congr 1
    have hcons : runTraceAux q ((List.range' 0 i).foldl (World.runStep q) w)
        (i :: List.range' (i + 1) (w.entities.length - i - 1))
        = (stepTrace q i (((List.range' 0 i).foldl (World.runStep q) w).slotAt i)).append
            (runTraceAux q
              (World.runStep q ((List.range' 0 i).foldl (World.runStep q) w) i)
              (List.range' (i + 1) (w.entities.length - i - 1))) := rfl
    rw [hcons, hw1]
  · intro e he hei
    exact hiL1 (hei ▸ (mem_runTraceAux q _ w e he).1)
  · intro e he hei
    exact hiL2 (hei ▸ (mem_runTraceAux q _ _ e he).1)
  · rw [runT_eq]
    show (w.run q).slotAt i = _
    unfold World.run
    rw [hr, List.foldl_append, List.foldl_cons]
    exact slotAt_foldl_not_mem q _ i hiL2 _

/-! ## The matching discipline of `run` (C2, C7, C9) -/

/-- C2: `run` treats a live entity as matching the query's key set iff every
key of the set has a value that is not the `undefined` sentinel on it —
strict definedness, so defined-but-falsy values (`0`, `""`, `false`) count as
present (`hasAllKeys` tests `e[key] === undefined`).  A non-matching live
entity has no filter, foreach or map stage invoked on it and its slot is
untouched by the run; a matching one reaches the filter stage whenever the
query has one. -/
theorem c2_strict_definedness_matching (w : World) (q : QueryI) (i : Nat)
    (ent : JSObj) (hslot : w.slotAt i = some ent) :
    (hasAllKeys q.keys ent = true ↔ ∀ k ∈ q.keys, getProp ent k ≠ none) ∧
    (hasAllKeys q.keys ent = false →
      (w.runT q).2.noCallsAt i ∧ (w.runT q).1.slotAt i = some ent) ∧
    (hasAllKeys q.keys ent = true → q.filter.isSome = true →
      (i, pickedOf q.keys ent) ∈ (w.runT q).2.filterCalls) := by
  obtain ⟨t1, t2, w1, hw1, htr, ht1, ht2, hsl⟩ := runT_split w q i ent hslot
  refine ⟨?_, ?_, ?_⟩
  · simp [hasAllKeys, List.all_eq_true, Option.isSome_iff_ne_none]
  · intro hk
    constructor
    · rw [htr, stepTrace_skip_keys q i ent hk, Trace.nil_append]
      refine ⟨?_, ?_, ?_⟩
      · intro e he
        simp only [Trace.append, List.mem_append] at he
        rcases he with he | he
        · exact ht1 e (Or.inl he)
        · exact ht2 e (Or.inl he)
      · intro e he
        simp only [Trace.append, List.mem_append] at he
        rcases he with he | he
        · exact ht1 e (Or.inr (Or.inl he))
        · exact ht2 e (Or.inr (Or.inl he))
      · intro e he
        simp only [Trace.append, List.mem_append] at he
        rcases he with he | he
        · exact ht1 e (Or.inr (Or.inr he))
        · exact ht2 e (Or.inr (Or.inr he))
    · rw [hsl, runStep_skip_keys q w1 i ent hw1 hk]
      exact hw1
  · intro hk hf
    have hm := stepTrace_filterCalls_matched q i ent hk hf
    rw [htr]
    simp only [Trace.append, List.mem_append, hm, List.mem_singleton]
    tauto

/-- Witness for C2 at a concrete input: one entity whose only key `age` has
the falsy value `0`, and a query selecting `age` with a filter stage. -/
theorem c2_witness :
    ((⟨[some [("age", some (JSVal.num 0))]], []⟩ : World).slotAt 0
        = some [("age", some (JSVal.num 0))]) ∧
    ((hasAllKeys ["age"] [("age", some (JSVal.num 0))] = true ↔
        ∀ k ∈ ["age"], getProp [("age", some (JSVal.num 0))] k ≠ none) ∧
      (hasAllKeys ["age"] [("age", some (JSVal.num 0))] = false →
        ((⟨[some [("age", some (JSVal.num 0))]], []⟩ : World).runT
            ⟨["age"], some (fun _ => true), none, none⟩).2.noCallsAt 0 ∧
        ((⟨[some [("age", some (JSVal.num 0))]], []⟩ : World).runT
            ⟨["age"], some (fun _ => true), none, none⟩).1.slotAt 0
          = some [("age", some (JSVal.num 0))]) ∧
      (hasAllKeys ["age"] [("age", some (JSVal.num 0))] = true →
        (some (fun _ => true) : Option (JSObj → Bool)).isSome = true →
        (0, pickedOf ["age"] [("age", some (JSVal.num 0))]) ∈
          ((⟨[some [("age", some (JSVal.num 0))]], []⟩ : World).runT
            ⟨["age"], some (fun _ => true), none, none⟩).2.filterCalls)) :=
  ⟨rfl, c2_strict_definedness_matching
    ⟨[some [("age", some (JSVal.num 0))]], []⟩
    ⟨["age"], some (fun _ => true), none, none⟩ 0
    [("age", some (JSVal.num 0))] rfl⟩

/-- C7: if a query has a filter stage and the filter returns `false` on a
matched entity's projection, neither the foreach nor the map stage is
invoked on that entity, and the entity's stored keys and values are
unchanged by the run. -/
theorem c7_filter_false_entity_untouched (w : World) (q : QueryI) (i : Nat)
    (ent : JSObj) (f : JSObj → Bool) (hslot : w.slotAt i = some ent)
    (hf : q.filter = some f) (hk : hasAllKeys q.keys ent = true)
    (hfp : f (pickedOf q.keys ent) = false) :
    (∀ e ∈ (w.runT q).2.foreachCalls, e.1 ≠ i) ∧
    (∀ e ∈ (w.runT q).2.mapCalls, e.1 ≠ i) ∧
    (w.runT q).1.slotAt i = some ent := by
  obtain ⟨t1, t2, w1, hw1, htr, ht1, ht2, hsl⟩ := runT_split w q i ent hslot
  have hstep := stepTrace_filter_false q i ent f hf hk hfp
  refine ⟨?_, ?_, ?_⟩
  · intro e he
    rw [htr, hstep] at he
    simp only [Trace.append, List.mem_append, List.nil_append,
      List.not_mem_nil] at he
    rcases he with he | he
    · exact ht1 e (Or.inr (Or.inl he))
    · exact ht2 e (Or.inr (Or.inl he))
  · intro e he
    rw [htr, hstep] at he
    simp only [Trace.append, List.mem_append, List.nil_append,
      List.not_mem_nil] at he
    rcases he with he | he
    · exact ht1 e (Or.inr (Or.inr he))
    · exact ht2 e (Or.inr (Or.inr he))
  · rw [hsl, runStep_skip_filter q w1 i ent f hw1 hf hk hfp]
    exact hw1

/-- Witness for C7 at a concrete input: an entity `{age: 20}` matched by a
query on `age` whose filter always returns `false`, with foreach and map
stages present. -/
theorem c7_witness :
    ((⟨[some [("age", some (JSVal.num 20))]], []⟩ : World).slotAt 0
        = some [("age", some (JSVal.num 20))]) ∧
    ((fun _ => false : JSObj → Bool)
        (pickedOf ["age"] [("age", some (JSVal.num 20))]) = false) ∧
    ((∀ e ∈ ((⟨[some [("age", some (JSVal.num 20))]], []⟩ : World).runT
        ⟨["age"], some (fun _ => false), some (fun _ => ()),
          some (fun _ => none)⟩).2.foreachCalls, e.1 ≠ 0) ∧
     (∀ e ∈ ((⟨[some [("age", some (JSVal.num 20))]], []⟩ : World).runT
        ⟨["age"], some (fun _ => false), some (fun _ => ()),
          some (fun _ => none)⟩).2.mapCalls, e.1 ≠ 0) ∧
     ((⟨[some [("age", some (JSVal.num 20))]], []⟩ : World).runT
        ⟨["age"], some (fun _ => false), some (fun _ => ()),
          some (fun _ => none)⟩).1.slotAt 0
       = some [("age", some (JSVal.num 20))]) :=
  ⟨rfl, rfl, c7_filter_false_entity_untouched _ _ 0 _ _ rfl rfl rfl rfl⟩

/-- C9: a query whose selected key set is empty matches every live entity
(the presence test over no keys is vacuously true), and the projection
passed to every filter, foreach and map invocation is the empty record;
when a filter stage is present it really is invoked, with the empty record,
for every live entity. -/
theorem c9_empty_selection_matches_all (w : World) (q : QueryI)
    (hkeys : q.keys = []) :
    (∀ e : JSObj, hasAllKeys q.keys e = true) ∧
    (∀ ent : JSObj, pickedOf q.keys ent = []) ∧
    (∀ e ∈ (w.runT q).2.filterCalls, e.2 = []) ∧
    (∀ e ∈ (w.runT q).2.foreachCalls, e.2 = []) ∧
    (∀ e ∈ (w.runT q).2.mapCalls, e.2 = []) ∧
    (q.filter.isSome = true → ∀ (i : Nat) (ent : JSObj),
      w.slotAt i = some ent → (i, []) ∈ (w.runT q).2.filterCalls) := by
  have hall : ∀ e : JSObj, hasAllKeys q.keys e = true := by
    intro e
    rw [hkeys]
    rfl
  have hpick : ∀ ent : JSObj, pickedOf q.keys ent = [] := by
    intro ent
    rw [hkeys]
    rfl
  refine ⟨hall, hpick, ?_, ?_, ?_, ?_⟩
  · intro e he
    rw [runT_eq] at he
    obtain ⟨-, ent, h2⟩ := mem_runTraceAux q _ w e (Or.inl he)
    rw [h2, hpick]
  · intro e he
    rw [runT_eq] at he
    obtain ⟨-, ent, h2⟩ := mem_runTraceAux q _ w e (Or.inr (Or.inl he))
    rw [h2, hpick]
  · intro e he
    rw [runT_eq] at he
    obtain ⟨-, ent, h2⟩ := mem_runTraceAux q _ w e (Or.inr (Or.inr he))
    rw [h2, hpick]
  · intro hf i ent hslot
    obtain ⟨t1, t2, w1, hw1, htr, ht1, ht2, hsl⟩ := runT_split w q i ent hslot
    have hm := stepTrace_filterCalls_matched q i ent (hall ent) hf
    rw [hpick ent] at hm
    rw [htr]
    simp only [Trace.append, List.mem_append, hm, List.mem_singleton]
    tauto

/-- Witness for C9 at a concrete input: one live entity `{a: 1}` and an
empty-selection query with a filter stage. -/
theorem c9_witness :
    ((⟨([] : List String), some (fun _ => true), none, none⟩ : QueryI).keys
        = []) ∧
    ((∀ e : JSObj, hasAllKeys [] e = true) ∧
     (∀ ent : JSObj, pickedOf [] ent = []) ∧
     (∀ e ∈ ((⟨[some [("a", some (JSVal.num 1))]], []⟩ : World).runT
        ⟨[], some (fun _ => true), none, none⟩).2.filterCalls, e.2 = []) ∧
     (∀ e ∈ ((⟨[some [("a", some (JSVal.num 1))]], []⟩ : World).runT
        ⟨[], some (fun _ => true), none, none⟩).2.foreachCalls, e.2 = []) ∧
     (∀ e ∈ ((⟨[some [("a", some (JSVal.num 1))]], []⟩ : World).runT
        ⟨[], some (fun _ => true), none, none⟩).2.mapCalls, e.2 = []) ∧
     ((some (fun _ => true) : Option (JSObj → Bool)).isSome = true →
       ∀ (i : Nat) (ent : JSObj),
         (⟨[some [("a", some (JSVal.num 1))]], []⟩ : World).slotAt i = some ent →
         (i, []) ∈ ((⟨[some [("a", some (JSVal.num 1))]], []⟩ : World).runT
           ⟨[], some (fun _ => true), none, none⟩).2.filterCalls)) :=
  ⟨rfl, c9_empty_selection_matches_all
    ⟨[some [("a", some (JSVal.num 1))]], []⟩
    ⟨[], some (fun _ => true), none, none⟩ rfl⟩

/-! ## `allEntities` returns references, not copies (C5) -/

theorem filterMap_id_range {α : Type} (l : List (Option α)) :
    l.filterMap id = (List.range l.length).filterMap (fun i => l.getD i none) := by
  induction l with
  | nil => rfl
  | cons o t ih =>
    rw [List.length_cons, List.range_succ_eq_map, List.filterMap_cons,
      List.filterMap_cons, List.filterMap_map]
    have hcomp : ((fun i => (o :: t).getD i none) ∘ Nat.succ)
        = fun i => t.getD i none := by
      funext i
      rfl
    rw [hcomp, ← ih]
    cases o <;> rfl

/-- C5 counterexample: `allEntities` does NOT return copies.  Add the entity
`{name: "a"}` to a fresh world: the sequence returned by `allEntities` is
`[0]` — exactly the reference stored in slot `0`, not a fresh one (the
spec-side copying version would hand out the fresh address `1`).  Writing
through the returned reference therefore rewrites the record the World
itself stores: after the caller overwrites it with `{name: "b"}`, the
stored slot dereferences to `{name: "b"}`.  This refutes "not a reference
aliasing the World's stored entity records". -/
theorem c5_counterexample_alias :
    (RWorld.add1 ⟨[], [], []⟩ [("name", some (JSVal.str "a"))]).allEntities
      = [0] ∧
    (RWorld.add1 ⟨[], [], []⟩ [("name", some (JSVal.str "a"))]).entities
      = [some 0] ∧
    (RWorld.add1 ⟨[], [], []⟩ [("name", some (JSVal.str "a"))]).allEntitiesCopySpec.1
      = [1] ∧
    ((RWorld.add1 ⟨[], [], []⟩ [("name", some (JSVal.str "a"))]).heapWrite 0
        [("name", some (JSVal.str "b"))]).deref 0
      = [("name", some (JSVal.str "b"))] :=
  ⟨rfl, rfl, rfl, rfl⟩

/-- C5 (amended): `allEntities` returns a new sequence that lists, for the
live slots in ascending index order and skipping vacant ones, the stored
entity references themselves — aliases of the World's records, not copies —
and mutates nothing (it is a pure read of the slot array). -/
theorem c5_amended_allEntities_aliases (w : RWorld) :
    w.allEntities
      = (List.range w.entities.length).filterMap (fun i => w.entities.getD i none) ∧
    ∀ r ∈ w.allEntities, some r ∈ w.entities := by
  constructor
  · exact filterMap_id_range w.entities
  · intro r hr
    unfold RWorld.allEntities at hr
    rw [List.mem_filterMap] at hr
    obtain ⟨a, ha, hid⟩ := hr
    simp only [id] at hid
    rw [hid] at ha
    exact ha

/-- Witness for C5 (amended) at a concrete world: one live slot referencing
address `0`, one vacant slot. -/
theorem c5_witness :
    ((⟨[[("a", none)]], [some 0, none], []⟩ : RWorld).allEntities
        = (List.range 2).filterMap
            (fun i => ([some 0, none] : List (Option Nat)).getD i none)) ∧
    (∀ r ∈ (⟨[[("a", none)]], [some 0, none], []⟩ : RWorld).allEntities,
      some r ∈ ([some 0, none] : List (Option Nat))) :=
  c5_amended_allEntities_aliases ⟨[[("a", none)]], [some 0, none], []⟩

/-! ## Mutating the projection cannot reach entity storage (C10) -/

theorem runStepM_eq_runStep (q : QueryM) (w : World) (i : Nat) :
    World.runStepM q w i = World.runStep q.toPure w i := by
  unfold World.runStepM World.runStep QueryM.toPure QueryM.threadProj
  cases hs : w.slotAt i with
  | none => rfl
  | some ent =>
    dsimp only
    by_cases hk : hasAllKeys q.keys ent
    · cases hf : q.filterM with
      | none =>
        cases hg : q.foreachM with
        | none => cases hm : q.mapM <;> simp [hk, hf, hg]
        | some g => cases hm : q.mapM <;> simp [hk, hf, hg]
      | some f =>
        cases hg : q.foreachM with
        | none =>
          cases hm : q.mapM <;>
            by_cases hfp : (f (pickedOf q.keys ent)).1 <;>
              simp [hk, hf, hg, hfp]
        | some g =>
          cases hm : q.mapM <;>
            by_cases hfp : (f (pickedOf q.keys ent)).1 <;>
              simp [hk, hf, hg, hfp]
    · simp [hk]

/-- C10: each matched entity gets a freshly built projection (`pickedOf` of
the entity's current values), and a stage that assigns to or deletes keys of
that projection object cannot change the entity stored in the World: running
with projection-mutating stages produces exactly the world of the
mutation-free run whose pure stages return the same values (the mutations
are visible only as different inputs to the later stages, threaded exactly
as the source threads the single `picked` object); stored structure changes
only through the map stage's returned diff. -/
theorem c10_projection_mutation_never_stored (w : World) (q : QueryM) :
    w.runM q = w.run q.toPure := by
  unfold World.runM World.run
  have haux : ∀ (L : List Nat) (w' : World),
      L.foldl (World.runStepM q) w' = L.foldl (World.runStep q.toPure) w' := by
    intro L
    induction L with
    | nil => intro w'; rfl
    | cons j js ih =>
      intro w'
      rw [List.foldl_cons, List.foldl_cons, runStepM_eq_runStep, ih]
  exact haux _ w

end MicroEcs
